import Mathlib

set_option maxRecDepth 100000

/-!
Verification of the Anoma authenticated storage layer.

This file gives a shallow embedding of the storage engine
(`ledger/src/bin/anoma-node/shell/storage/mod.rs`), the guest-side
two-step read helper (`vm_env/src/imports.rs`) and the signature
verification wrapper (`shared/src/types/key/ed25519.rs`), and proves
the specified properties about them.

Conventions of the embedding:
* Rust `u64` values are `Nat` with explicit `% 2 ^ 64` where overflow
  matters; `String` identifiers are modelled by their UTF-8 byte lists
  (`List Nat`, each entry `< 256`).
* The sparse Merkle tree of the `sparse_merkle_tree` crate is modelled
  by its leaf assignment: a function from 256-bit key digests to
  256-bit value digests, where the all-zero digest stands for an
  absent leaf (exactly as in the crate, where updating a leaf to the
  zero hash restores the empty subtree).  The root is determined by
  this assignment, so root equality is modelled by equality of leaf
  assignments.
* `blake2b` (via `blake2b-rs`, personalized with `b"anoma storage"`,
  32-byte digest) is implemented in full (RFC 7693) so that the
  hashing claims can be evaluated on concrete inputs.
-/

/-- The modulus of Rust `u64` arithmetic. -/
def U64 : Nat := 2 ^ 64

/-- `u64` wrapping addition. -/
def add64 (a b : Nat) : Nat := (a + b) % U64

/-- Bitwise xor of 64-bit words (stays below `2 ^ 64` for such inputs). -/
def xor64 (a b : Nat) : Nat := a ^^^ b

/-- Right rotation of a 64-bit word by `n` bits (`0 < n < 64`). -/
def rotr64 (x n : Nat) : Nat := ((x >>> n) ||| (x <<< (64 - n))) % U64

/-- The blake2b message schedule (RFC 7693, table of sigma rows). -/
def blakeSigma : List (List Nat) :=
  [[0, 1, 2, 3, 4, 5, 6, 7, 8, 9, 10, 11, 12, 13, 14, 15],
   [14, 10, 4, 8, 9, 15, 13, 6, 1, 12, 0, 2, 11, 7, 5, 3],
   [11, 8, 12, 0, 5, 2, 15, 13, 10, 14, 3, 6, 7, 1, 9, 4],
   [7, 9, 3, 1, 13, 12, 11, 14, 2, 6, 5, 10, 4, 0, 15, 8],
   [9, 0, 5, 7, 2, 4, 10, 15, 14, 1, 11, 12, 6, 8, 3, 13],
   [2, 12, 6, 10, 0, 11, 8, 3, 4, 13, 7, 5, 15, 14, 1, 9],
   [12, 5, 1, 15, 14, 13, 4, 10, 0, 7, 6, 3, 9, 2, 8, 11],
   [13, 11, 7, 14, 12, 1, 3, 9, 5, 0, 15, 4, 8, 6, 2, 10],
   [6, 15, 14, 9, 11, 3, 0, 8, 12, 2, 13, 7, 1, 4, 10, 5],
   [10, 2, 8, 4, 7, 6, 1, 5, 15, 11, 9, 14, 3, 12, 13, 0]]

/-- The blake2b initialization vector. -/
def blakeIV : List Nat :=
  [0x6a09e667f3bcc908, 0xbb67ae8584caa73b,
   0x3c6ef372fe94f82b, 0xa54ff53a5f1d36f1,
   0x510e527fade682d1, 0x9b05688c2b3e6c1f,
   0x1f83d9abfb41bd6b, 0x5be0cd19137e2179]

/-- The blake2b quarter-round `G` on the 16-word working vector `v`. -/
def gmix (v : List Nat) (a b c d x y : Nat) : List Nat :=
  let va := add64 (add64 (v.getD a 0) (v.getD b 0)) x
  let vd := rotr64 (xor64 (v.getD d 0) va) 32
  let vc := add64 (v.getD c 0) vd
  let vb := rotr64 (xor64 (v.getD b 0) vc) 24
  let va2 := add64 (add64 va vb) y
  let vd2 := rotr64 (xor64 vd va2) 16
  let vc2 := add64 vc vd2
  let vb2 := rotr64 (xor64 vb vc2) 63
  (((v.set a va2).set b vb2).set c vc2).set d vd2

/-- One blake2b round: eight `G` applications driven by a sigma row. -/
def blakeRound (m v sig : List Nat) : List Nat :=
  let mi := fun j => m.getD (sig.getD j 0) 0
  let v := gmix v 0 4 8 12 (mi 0) (mi 1)
  let v := gmix v 1 5 9 13 (mi 2) (mi 3)
  let v := gmix v 2 6 10 14 (mi 4) (mi 5)
  let v := gmix v 3 7 11 15 (mi 6) (mi 7)
  let v := gmix v 0 5 10 15 (mi 8) (mi 9)
  let v := gmix v 1 6 11 12 (mi 10) (mi 11)
  let v := gmix v 2 7 8 13 (mi 12) (mi 13)
  gmix v 3 4 9 14 (mi 14) (mi 15)

/-- Little-endian interpretation of a byte list as a word. -/
def leWord : List Nat → Nat
  | [] => 0
  | b :: rest => b + 256 * leWord rest

/-- Split a byte list into `n` little-endian 64-bit words. -/
def bytesToWords : Nat → List Nat → List Nat
  | 0, _ => []
  | n + 1, bs => leWord (bs.take 8) :: bytesToWords n (bs.drop 8)

/-- The `n` little-endian bytes of `x` (Rust `to_le_bytes` with `n = 8`). -/
def natToLEBytes : Nat → Nat → List Nat
  | 0, _ => []
  | n + 1, x => (x % 256) :: natToLEBytes n (x / 256)

/-- The blake2b compression function `F` on a block of at most 128
bytes (zero-padded), with byte counter `t` and finalization flag. -/
def blakeCompress (h block : List Nat) (t : Nat) (last : Bool) : List Nat :=
  let m := bytesToWords 16 (block ++ List.replicate (128 - block.length) 0)
  let v := h ++ blakeIV
  let v := v.set 12 (xor64 (v.getD 12 0) (t % U64))
  let v := v.set 13 (xor64 (v.getD 13 0) (t / U64 % U64))
  let v := if last then v.set 14 (xor64 (v.getD 14 0) (U64 - 1)) else v
  let v := (List.range 12).foldl
    (fun v i => blakeRound m v (blakeSigma.getD (i % 10) [])) v
  (List.range 8).map
    (fun i => xor64 (xor64 (h.getD i 0) (v.getD i 0)) (v.getD (i + 8) 0))

/-- Absorb a message: full blocks, then the final (possibly short or
empty) block with the finalization flag set.  Structural recursion on
a fuel counter; each step consumes 128 bytes, so any fuel of at least
`msg.length` steps is enough, and the fuel-exhausted base case
coincides with the final-block case. -/
def blakeLoopF : Nat → List Nat → List Nat → Nat → List Nat
  | 0, h, msg, t => blakeCompress h msg (t + msg.length) true
  | fuel + 1, h, msg, t =>
    if msg.length ≤ 128 then blakeCompress h msg (t + msg.length) true
    else blakeLoopF fuel (blakeCompress h (msg.take 128) (t + 128) false)
      (msg.drop 128) (t + 128)

/-- Absorb a whole message, with fuel `msg.length`. -/
def blakeLoop (h msg : List Nat) (t : Nat) : List Nat :=
  blakeLoopF msg.length h msg t

/-- The personalization `b"anoma storage"` zero-padded to 16 bytes,
exactly as `blake2b-rs` stores it in the parameter block. -/
def anomaPersonal : List Nat :=
  [0x61, 0x6e, 0x6f, 0x6d, 0x61, 0x20, 0x73, 0x74,
   0x6f, 0x72, 0x61, 0x67, 0x65, 0, 0, 0]

/-- The initial state of `new_blake2b()`: the IV xored with the
parameter block (digest length 32, fanout 1, depth 1, personalized). -/
def blakeH0 : List Nat :=
  ((blakeIV.set 0 (xor64 (blakeIV.getD 0 0) 0x01010020)).set 6
      (xor64 (blakeIV.getD 6 0) (leWord (anomaPersonal.take 8)))).set 7
    (xor64 (blakeIV.getD 7 0) (leWord (anomaPersonal.drop 8)))

/-- `new_blake2b()` hashing `data` to a 32-byte digest, i.e. blake2b
with digest length 32 and personalization `b"anoma storage"`. -/
def blake2bAnoma (data : List Nat) : List Nat :=
  ((blakeLoop blakeH0 data 0).take 4).foldr
    (fun w acc => natToLEBytes 8 w ++ acc) []

/-- A 256-bit digest (`H256`), as its 32 bytes. -/
abbrev H256 := List Nat

/-- `H256::zero()`, the all-zero digest. -/
def H256.zero : H256 := List.replicate 32 0

/-- `enum Address`: a validator or basic address wrapping an opaque
string identifier (modelled by its UTF-8 bytes). -/
inductive Address where
  | Validator (addr : List Nat)
  | Basic (addr : List Nat)
deriving DecidableEq

/-- `struct Balance(u64)`. -/
structure Balance where
  val : Nat
deriving DecidableEq

/-- `impl Hash256 for &str / String`: the empty string maps to the
zero digest, any other string to the blake2b digest of its bytes. -/
def strHash256 (s : List Nat) : H256 :=
  if s = [] then H256.zero else blake2bAnoma s

/-- `impl Hash256 for Balance`: zero maps to the zero digest, any
other value to blake2b of its little-endian bytes. -/
def Balance.hash256 (b : Balance) : H256 :=
  if b.val = 0 then H256.zero else blake2bAnoma (natToLEBytes 8 b.val)

/-- `impl Hash256 for u64`: blake2b of the little-endian bytes.
Note that, unlike `Balance` and strings, there is no special case
mapping zero to the zero digest. -/
def u64Hash256 (n : Nat) : H256 := blake2bAnoma (natToLEBytes 8 n)

/-- `impl Hash256 for Address`: both variants dispatch to the hash of
the wrapped string, with no variant-specific domain separation. -/
def Address.hash256 : Address → H256
  | .Basic addr => strHash256 addr
  | .Validator addr => strHash256 addr

/-- The sparse Merkle tree, modelled by its leaf assignment: key
digest to value digest, the zero digest denoting an absent leaf.  The
root of the crate's tree is determined by exactly this assignment, so
root equality is leaf-assignment equality. -/
def MerkleTree := H256 → H256

/-- `SparseMerkleTree::default()`: the empty tree. -/
def MerkleTree.empty : MerkleTree := fun _ => H256.zero

/-- `SparseMerkleTree::update`: insert or overwrite one leaf
(writing the zero digest restores the empty subtree). -/
def MerkleTree.update (t : MerkleTree) (key value : H256) : MerkleTree :=
  fun k => if k = key then value else t k

/-- `const BLOCK_HASH_LENGTH: usize = 32`. -/
def BLOCK_HASH_LENGTH : Nat := 32

/-- `struct BlockHash([u8; 32])`. -/
structure BlockHash where
  bytes : List Nat
deriving DecidableEq

/-- `impl Default for BlockHash`: 32 zero bytes. -/
def BlockHash.default : BlockHash := ⟨List.replicate 32 0⟩

/-- `impl TryFrom<&[u8]> for BlockHash`: fails unless the slice has
exactly 32 bytes, which are then copied into the hash. -/
def BlockHash.tryFrom (value : List Nat) : Except String BlockHash :=
  if value.length ≠ BLOCK_HASH_LENGTH then
    .error ("Unexpected block hash length " ++ toString value.length ++
      ", expected " ++ toString BLOCK_HASH_LENGTH)
  else .ok ⟨value⟩

/-- `struct BlockStorage`. -/
structure BlockStorage where
  tree : MerkleTree
  hash : BlockHash
  height : Nat
  balances : List (Address × Balance)

/-- `struct Storage`. -/
structure Storage where
  chain_id : List Nat
  block : BlockStorage

/-- `impl Default for Storage`: empty tree, zero block hash, height 0,
no balances, empty chain id. -/
def Storage.default : Storage :=
  { chain_id := [],
    block := { tree := MerkleTree.empty, hash := BlockHash.default,
               height := 0, balances := [] } }

/-- `HashMap::get` on the balances map (modelled as an association
list with distinct keys). -/
def lookupBal : List (Address × Balance) → Address → Option Balance
  | [], _ => none
  | (k, v) :: rest, a => if k = a then some v else lookupBal rest a

/-- `HashMap::insert` on the balances map: replace the entry of the
key if present, otherwise add one. -/
def insertBal :
    List (Address × Balance) → Address → Balance → List (Address × Balance)
  | [], a, b => [(a, b)]
  | (k, v) :: rest, a, b =>
    if k = a then (a, b) :: rest else (k, v) :: insertBal rest a b

/-- `Storage::merkle_root`: the root, i.e. (in this embedding) the
leaf assignment that determines it. -/
def Storage.merkle_root (s : Storage) : MerkleTree := s.block.tree

/-- `Storage::has_balance_gte`. -/
def Storage.has_balance_gte (s : Storage) (addr : Address) (amount : Nat) :
    Except String Unit :=
  match lookupBal s.block.balances addr with
  | none => .error "Source not found"
  | some b =>
    if b.val < amount then .error "Source balance is too low" else .ok ()

/-- `Storage::update_tree`.  The underlying default store is total, so
the SMT error branch of the Rust code is dead and the update always
succeeds. -/
def Storage.update_tree (s : Storage) (key value : H256) : Storage :=
  { s with block := { s.block with tree := s.block.tree.update key value } }

/-- `Storage::update_balance`: update the tree leaf at
`hash256 addr` to `hash256 balance`, then the denormalized map. -/
def Storage.update_balance (s : Storage) (addr : Address) (balance : Balance) :
    Storage :=
  let key := addr.hash256
  let value := balance.hash256
  let s1 := s.update_tree key value
  { s1 with block :=
    { s1.block with balances := insertBal s1.block.balances addr balance } }

/-- `Storage::transfer`.  The `Except` component is the returned
`Result`, the `Storage` component the state of `self` after the call
(unchanged when the result is an error, since the Rust code returns
before any mutation).  The credit of `dest` is u64 addition, hence the
`% 2 ^ 64`. -/
def Storage.transfer (s : Storage) (src dest : Address) (amount : Nat) :
    Except String Unit × Storage :=
  match lookupBal s.block.balances src with
  | none => (.error "Source not found", s)
  | some srcBal =>
    if srcBal.val < amount then (.error "Source balance is too low", s)
    else
      let s1 := s.update_balance src ⟨srcBal.val - amount⟩
      match lookupBal s1.block.balances dest with
      | none => (.ok (), s1.update_balance dest ⟨amount⟩)
      | some destBal =>
        (.ok (), s1.update_balance dest ⟨(destBal.val + amount) % U64⟩)

/-- `Storage::set_chain_id`: overwrite the chain id only; the tree is
deliberately not updated. -/
def Storage.set_chain_id (s : Storage) (chain_id : List Nat) :
    Except String Unit × Storage :=
  (.ok (), { s with chain_id := chain_id })

/-- `Storage::begin_block`: replace the block hash and height only;
the tree is deliberately not updated. -/
def Storage.begin_block (s : Storage) (hash : BlockHash) (height : Nat) :
    Except String Unit × Storage :=
  (.ok (), { s with block := { s.block with hash := hash, height := height } })

/-- A write operation against `Storage` (the two mutating entry points
the balance claims quantify over). -/
inductive Op where
  | update (addr : Address) (balance : Nat)
  | transfer (src dest : Address) (amount : Nat)
deriving DecidableEq

/-- Apply one operation; a failed transfer leaves the state unchanged. -/
def applyOp (s : Storage) : Op → Storage
  | .update addr balance => s.update_balance addr ⟨balance⟩
  | .transfer src dest amount => (s.transfer src dest amount).2

/-- Run a sequence of operations from a given state. -/
def runFrom (s : Storage) (ops : List Op) : Storage := ops.foldl applyOp s

/-- Run a sequence of operations from the default (empty) storage. -/
def runOps (ops : List Op) : Storage := runFrom Storage.default ops

/-- The addresses an operation writes to. -/
def Op.addrs : Op → List Address
  | .update addr _ => [addr]
  | .transfer src dest _ => [src, dest]

/-- All addresses mentioned by a sequence of operations. -/
def addrsOf (ops : List Op) : List Address :=
  ops.foldr (fun op acc => op.addrs ++ acc) []

/-- `hash256` is injective on the given list of addresses. -/
def HashInjOn (l : List Address) : Prop :=
  ∀ a ∈ l, ∀ b ∈ l, a.hash256 = b.hash256 → a = b

/-- Injectivity over a concrete address list is decidable (each hash
comparison is a blake2b evaluation). -/
instance (l : List Address) : Decidable (HashInjOn l) := by
  unfold HashInjOn
  infer_instance

/-- The balance of an address, treating absence as zero (the reading
`transfer` applies to its destination). -/
def balOf (s : Storage) (a : Address) : Nat :=
  match lookupBal s.block.balances a with
  | some b => b.val
  | none => 0

/-- The value digest the balances map determines for the tree leaf at
key digest `k`: the hashed balance of the first entry whose address
hashes to `k`, or the zero digest. -/
def valAtHash : List (Address × Balance) → H256 → H256
  | [], _ => H256.zero
  | (a, b) :: rest, k => if a.hash256 = k then b.hash256 else valAtHash rest k

/-- Recompute the tree from the balances map by the documented hashing
rule: one leaf `hash256 addr ↦ hash256 bal` per entry. -/
def recomputedRoot (bs : List (Address × Balance)) : MerkleTree :=
  bs.foldl (fun t e => t.update e.1.hash256 e.2.hash256) MerkleTree.empty

/-- Consistency of the denormalized balances map with the tree: keys
are distinct and every leaf is exactly what the map determines. -/
def StorageInv (s : Storage) : Prop :=
  (s.block.balances.map Prod.fst).Nodup ∧
  ∀ k, s.block.tree k = valAtHash s.block.balances k

/-- Modelled from the spec: `HostEnvResult::is_fail` from
`anoma_shared::types::internal` is not under `src/`; per the spec,
presence/absence across the boundary is encoded as a signed integer
where a negative value (conventionally `-1`) means absent/failure and
any non-negative value is a valid size. -/
def HostEnvResult.is_fail (int : Int) : Bool := int < 0

/-- Modelled from the spec: `HostEnvResult::is_success`, the positive
success marker of the same encoding. -/
def HostEnvResult.is_success (int : Int) : Bool := 0 ≤ int

/-- `read_from_buffer` (`vm_env/src/imports.rs`): the second step of
the two-step read.  `read_result` is the probe result; `buf` stands
for the bytes the host's `result_buffer` call materializes into the
guest allocation of that size; `decode` is `T::try_from_slice(..).ok()`
for the Borsh-decodable target type. -/
def read_from_buffer {T : Type} (read_result : Int) (buf : List Nat)
    (decode : List Nat → Option T) : Option T :=
  if HostEnvResult.is_fail read_result then none else decode buf

/-- `tx::read` (also the shape of `vp::read_pre` / `vp::read_post`):
probe the host for the key, then run the two-step read.  `host` stands
for the host-side read function (`anoma_tx_read` and the buffer it
stashes). -/
def tx_read {T : Type} (host : List Nat → Int × List Nat) (key : List Nat)
    (decode : List Nat → Option T) : Option T :=
  read_from_buffer (host key).1 (host key).2 decode

/-- `vp::read_pre`: identical two-step shape against the pre view. -/
def vp_read_pre {T : Type} (host : List Nat → Int × List Nat) (key : List Nat)
    (decode : List Nat → Option T) : Option T :=
  read_from_buffer (host key).1 (host key).2 decode

/-- `vp::read_post`: identical two-step shape against the post view. -/
def vp_read_post {T : Type} (host : List Nat → Int × List Nat) (key : List Nat)
    (decode : List Nat → Option T) : Option T :=
  read_from_buffer (host key).1 (host key).2 decode

/-- `enum VerifySigError` (`shared/src/types/key/ed25519.rs`): the
two distinguishable failure variants of signature verification, with
their payloads (a `SignatureError`, resp. an `std::io::Error`,
modelled by their message strings). -/
inductive VerifySigError where
  | SigError (e : String)
  | EncodingError (e : String)
deriving DecidableEq

/-- `verify_signature`: Borsh-encode the data (an `EncodingError` on
failure), then check the ed25519 signature over the encoded bytes (a
`SigError` on failure).  `try_to_vec` and `verify_strict` are the
external Borsh and ed25519-dalek collaborators, passed as functions. -/
def verify_signature {T PK Sig : Type}
    (try_to_vec : T → Except String (List Nat))
    (verify_strict : PK → List Nat → Sig → Except String Unit)
    (pk : PK) (data : T) (sig : Sig) : Except VerifySigError Unit :=
  match try_to_vec data with
  | .error e => .error (.EncodingError e)
  | .ok bytes =>
    match verify_strict pk bytes sig with
    | .error e => .error (.SigError e)
    | .ok _ => .ok ()

theorem insertBal_nil (a : Address) (b : Balance) :
    insertBal [] a b = [(a, b)] := rfl

theorem insertBal_cons_eq (k : Address) (v : Balance)
    (rest : List (Address × Balance)) (b : Balance) :
    insertBal ((k, v) :: rest) k b = (k, b) :: rest := by
  simp [insertBal]

theorem insertBal_cons_ne (k : Address) (v : Balance)
    (rest : List (Address × Balance)) (a : Address) (b : Balance)
    (h : k ≠ a) :
    insertBal ((k, v) :: rest) a b = (k, v) :: insertBal rest a b := by
  simp [insertBal, h]

theorem transfer_eq_none (s : Storage) (src dest : Address) (amount : Nat)
    (h : lookupBal s.block.balances src = none) :
    s.transfer src dest amount = (.error "Source not found", s) := by
  unfold Storage.transfer
  rw [h]

theorem transfer_eq_low (s : Storage) (src dest : Address) (amount : Nat)
    (srcBal : Balance) (h : lookupBal s.block.balances src = some srcBal)
    (hlt : srcBal.val < amount) :
    s.transfer src dest amount = (.error "Source balance is too low", s) := by
  unfold Storage.transfer
  rw [h]
  simp [hlt]

theorem transfer_eq_absent (s : Storage) (src dest : Address) (amount : Nat)
    (srcBal : Balance) (h : lookupBal s.block.balances src = some srcBal)
    (hge : ¬ srcBal.val < amount)
    (hd : lookupBal (s.update_balance src
      ⟨srcBal.val - amount⟩).block.balances dest = none) :
    s.transfer src dest amount = (.ok (),
      (s.update_balance src ⟨srcBal.val - amount⟩).update_balance dest
        ⟨amount⟩) := by
  unfold Storage.transfer
  rw [h]
  simp only [if_neg hge]
  rw [hd]

theorem transfer_eq_present (s : Storage) (src dest : Address) (amount : Nat)
    (srcBal destBal : Balance)
    (h : lookupBal s.block.balances src = some srcBal)
    (hge : ¬ srcBal.val < amount)
    (hd : lookupBal (s.update_balance src
      ⟨srcBal.val - amount⟩).block.balances dest = some destBal) :
    s.transfer src dest amount = (.ok (),
      (s.update_balance src ⟨srcBal.val - amount⟩).update_balance dest
        ⟨(destBal.val + amount) % U64⟩) := by
  unfold Storage.transfer
  rw [h]
  simp only [if_neg hge]
  rw [hd]

theorem lookupBal_insertBal :
    ∀ (bs : List (Address × Balance)) (a : Address) (b : Balance) (x : Address),
    lookupBal (insertBal bs a b) x = if x = a then some b else lookupBal bs x := by
  intro bs
  induction bs with
  | nil =>
    intro a b x
    rw [insertBal_nil]
    simp only [lookupBal]
    by_cases h : x = a
    · simp only [if_pos h.symm, if_pos h]
    · have h2 : ¬ a = x := fun hh => h hh.symm
      simp only [if_neg h, if_neg h2]
  | cons e rest ih =>
    intro a b x
    obtain ⟨k, v⟩ := e
    by_cases hk : k = a
    · subst hk
      rw [insertBal_cons_eq]
      simp only [lookupBal]
      by_cases h : k = x
      · simp only [if_pos h, if_pos h.symm]
      · have h2 : ¬ x = k := fun hh => h hh.symm
        simp only [if_neg h, if_neg h2]
    · rw [insertBal_cons_ne k v rest a b hk]
      simp only [lookupBal, ih a b x]
      by_cases h : k = x
      · have h2 : ¬ x = a := fun hh => hk (h.trans hh)
        simp only [if_pos h, if_neg h2]
      · simp only [if_neg h]

theorem keys_insertBal :
    ∀ (bs : List (Address × Balance)) (a : Address) (b : Balance) (x : Address),
    x ∈ (insertBal bs a b).map Prod.fst → x = a ∨ x ∈ bs.map Prod.fst := by
  intro bs
  induction bs with
  | nil => intro a b x hx; simpa [insertBal] using hx
  | cons e rest ih =>
    intro a b x hx
    obtain ⟨k, v⟩ := e
    by_cases hk : k = a
    · subst hk
      rw [insertBal_cons_eq] at hx
      simp only [List.map_cons, List.mem_cons] at hx ⊢
      tauto
    · rw [insertBal_cons_ne k v rest a b hk] at hx
      simp only [List.map_cons, List.mem_cons] at hx ⊢
      rcases hx with h | h
      · tauto
      · rcases ih a b x h with h | h <;> tauto

theorem nodup_insertBal :
    ∀ (bs : List (Address × Balance)) (a : Address) (b : Balance),
    (bs.map Prod.fst).Nodup → ((insertBal bs a b).map Prod.fst).Nodup := by
  intro bs
  induction bs with
  | nil => intro a b _; simp [insertBal]
  | cons e rest ih =>
    intro a b hnd
    obtain ⟨k, v⟩ := e
    simp only [List.map_cons, List.nodup_cons] at hnd
    by_cases hk : k = a
    · subst hk
      rw [insertBal_cons_eq]
      simpa [List.nodup_cons] using hnd
    · rw [insertBal_cons_ne k v rest a b hk]
      simp only [List.map_cons, List.nodup_cons]
      refine ⟨fun hmem => ?_, ih a b hnd.2⟩
      rcases keys_insertBal rest a b k hmem with h | h
      · exact hk h
      · exact hnd.1 h

theorem valAtHash_insertBal :
    ∀ (bs : List (Address × Balance)) (a : Address) (b : Balance) (k : H256),
    (∀ c ∈ bs.map Prod.fst, c.hash256 = a.hash256 → c = a) →
    valAtHash (insertBal bs a b) k =
      if k = a.hash256 then b.hash256 else valAtHash bs k := by
  intro bs
  induction bs with
  | nil =>
    intro a b k _
    rw [insertBal_nil]
    simp only [valAtHash]
    by_cases h : k = a.hash256
    · simp only [if_pos h.symm, if_pos h]
    · have h2 : ¬ a.hash256 = k := fun hh => h hh.symm
      simp only [if_neg h, if_neg h2]
  | cons e rest ih =>
    intro a b k hcond
    obtain ⟨c, v⟩ := e
    simp only [List.map_cons, List.mem_cons] at hcond
    by_cases hc : c = a
    · subst hc
      rw [insertBal_cons_eq]
      simp only [valAtHash]
      by_cases h : c.hash256 = k
      · simp only [if_pos h, if_pos h.symm]
      · have h2 : ¬ k = c.hash256 := fun hh => h hh.symm
        simp only [if_neg h, if_neg h2]
    · rw [insertBal_cons_ne c v rest a b hc]
      simp only [valAtHash, ih a b k (fun x hx => hcond x (Or.inr hx))]
      by_cases hck : c.hash256 = k
      · have h2 : ¬ k = a.hash256 :=
          fun hh => hc (hcond c (Or.inl rfl) (hck.trans hh))
        simp only [if_pos hck, if_neg h2]
      · simp only [if_neg hck]

theorem lookupBal_mem_keys :
    ∀ (bs : List (Address × Balance)) (x : Address) (b : Balance),
    lookupBal bs x = some b → x ∈ bs.map Prod.fst := by
  intro bs
  induction bs with
  | nil => intro x b h; simp [lookupBal] at h
  | cons e rest ih =>
    intro x b h
    obtain ⟨k, v⟩ := e
    simp only [lookupBal] at h
    by_cases hk : k = x
    · subst hk; simp
    · rw [if_neg hk] at h
      simp only [List.map_cons, List.mem_cons]
      exact Or.inr (ih x b h)

theorem valAtHash_lookup :
    ∀ (bs : List (Address × Balance)) (x : Address) (bal : Balance),
    lookupBal bs x = some bal →
    (∀ c ∈ bs.map Prod.fst, c.hash256 = x.hash256 → c = x) →
    valAtHash bs x.hash256 = bal.hash256 := by
  intro bs
  induction bs with
  | nil => intro x bal h _; simp [lookupBal] at h
  | cons e rest ih =>
    intro x bal h hcond
    obtain ⟨k, v⟩ := e
    simp only [lookupBal] at h
    simp only [List.map_cons, List.mem_cons] at hcond
    by_cases hk : k = x
    · subst hk
      rw [if_pos rfl] at h
      simp only [valAtHash, if_pos rfl]
      exact congrArg Balance.hash256 (Option.some.inj h)
    · rw [if_neg hk] at h
      have hkh : ¬ k.hash256 = x.hash256 :=
        fun hh => hk (hcond k (Or.inl rfl) hh)
      simp only [valAtHash, if_neg hkh]
      exact ih x bal h (fun c hc => hcond c (Or.inr hc))

theorem valAtHash_not_mem :
    ∀ (bs : List (Address × Balance)) (k : H256),
    (∀ c ∈ bs.map Prod.fst, c.hash256 ≠ k) → valAtHash bs k = H256.zero := by
  intro bs
  induction bs with
  | nil => intro k _; rfl
  | cons e rest ih =>
    intro k hcond
    obtain ⟨a, b⟩ := e
    simp only [List.map_cons, List.mem_cons] at hcond
    simp only [valAtHash, if_neg (hcond a (Or.inl rfl))]
    exact ih k (fun c hc => hcond c (Or.inr hc))

theorem storageInv_update_balance (s : Storage) (a : Address) (b : Balance)
    (hInv : StorageInv s)
    (ha : ∀ c ∈ s.block.balances.map Prod.fst, c.hash256 = a.hash256 → c = a) :
    StorageInv (s.update_balance a b) := by
  obtain ⟨hnd, htree⟩ := hInv
  refine ⟨nodup_insertBal _ _ _ hnd, fun k => ?_⟩
  show (s.block.tree.update a.hash256 b.hash256) k =
    valAtHash (insertBal s.block.balances a b) k
  rw [valAtHash_insertBal _ _ _ _ ha, MerkleTree.update]
  by_cases hk : k = a.hash256
  · simp [hk]
  · simp [hk, htree k]

theorem update_balance_balances (s : Storage) (a : Address) (b : Balance) :
    (s.update_balance a b).block.balances = insertBal s.block.balances a b :=
  rfl

theorem update_balance_tree (s : Storage) (a : Address) (b : Balance) :
    (s.update_balance a b).block.tree =
      s.block.tree.update a.hash256 b.hash256 :=
  rfl

theorem transfer_keys (s : Storage) (src dest : Address) (amount : Nat) :
    ∀ x ∈ (s.transfer src dest amount).2.block.balances.map Prod.fst,
    x = src ∨ x = dest ∨ x ∈ s.block.balances.map Prod.fst := by
  intro x hx
  cases hl : lookupBal s.block.balances src with
  | none =>
    rw [transfer_eq_none s src dest amount hl] at hx
    exact Or.inr (Or.inr hx)
  | some srcBal =>
    by_cases hlt : srcBal.val < amount
    · rw [transfer_eq_low s src dest amount srcBal hl hlt] at hx
      exact Or.inr (Or.inr hx)
    · cases hd : lookupBal (s.update_balance src
          ⟨srcBal.val - amount⟩).block.balances dest with
      | none =>
        rw [transfer_eq_absent s src dest amount srcBal hl hlt hd,
          update_balance_balances, update_balance_balances] at hx
        rcases keys_insertBal _ _ _ _ hx with h | h
        · exact Or.inr (Or.inl h)
        · rcases keys_insertBal _ _ _ _ h with h | h
          · exact Or.inl h
          · exact Or.inr (Or.inr h)
      | some destBal =>
        rw [transfer_eq_present s src dest amount srcBal destBal hl hlt hd,
          update_balance_balances, update_balance_balances] at hx
        rcases keys_insertBal _ _ _ _ hx with h | h
        · exact Or.inr (Or.inl h)
        · rcases keys_insertBal _ _ _ _ h with h | h
          · exact Or.inl h
          · exact Or.inr (Or.inr h)

theorem storageInv_transfer (s : Storage) (src dest : Address) (amount : Nat)
    (hInv : StorageInv s)
    (hsrc : ∀ c ∈ s.block.balances.map Prod.fst,
      c.hash256 = src.hash256 → c = src)
    (hdest : ∀ c ∈ s.block.balances.map Prod.fst,
      c.hash256 = dest.hash256 → c = dest)
    (hsd : src.hash256 = dest.hash256 → src = dest) :
    StorageInv (s.transfer src dest amount).2 := by
  cases hl : lookupBal s.block.balances src with
  | none => rw [transfer_eq_none s src dest amount hl]; exact hInv
  | some srcBal =>
    by_cases hlt : srcBal.val < amount
    · rw [transfer_eq_low s src dest amount srcBal hl hlt]; exact hInv
    · have hInv1 : StorageInv (s.update_balance src ⟨srcBal.val - amount⟩) :=
        storageInv_update_balance s src _ hInv hsrc
      have hdest1 : ∀ c ∈ (s.update_balance src
          ⟨srcBal.val - amount⟩).block.balances.map Prod.fst,
          c.hash256 = dest.hash256 → c = dest := by
        intro c hc hh
        rw [update_balance_balances] at hc
        rcases keys_insertBal _ _ _ _ hc with h | h
        · subst h; exact hsd hh
        · exact hdest c h hh
      cases hd : lookupBal (s.update_balance src
          ⟨srcBal.val - amount⟩).block.balances dest with
      | none =>
        rw [transfer_eq_absent s src dest amount srcBal hl hlt hd]
        exact storageInv_update_balance _ _ _ hInv1 hdest1
      | some destBal =>
        rw [transfer_eq_present s src dest amount srcBal destBal hl hlt hd]
        exact storageInv_update_balance _ _ _ hInv1 hdest1

theorem storageInv_runFrom :
    ∀ (ops : List Op) (s : Storage) (S : List Address), StorageInv s →
    HashInjOn S →
    (∀ a ∈ s.block.balances.map Prod.fst, a ∈ S) →
    (∀ a ∈ addrsOf ops, a ∈ S) →
    StorageInv (runFrom s ops) ∧
      ∀ a ∈ (runFrom s ops).block.balances.map Prod.fst, a ∈ S := by
  intro ops
  induction ops with
  | nil => intro s S h1 _ h3 _; exact ⟨h1, h3⟩
  | cons op rest ih =>
    intro s S hInv hS hkeys hops
    have hmem : ∀ a ∈ op.addrs ++ addrsOf rest, a ∈ S := by
      intro a ha; exact hops a ha
    have hop : ∀ a ∈ op.addrs, a ∈ S :=
      fun a ha => hmem a (List.mem_append_left _ ha)
    have hrest : ∀ a ∈ addrsOf rest, a ∈ S :=
      fun a ha => hmem a (List.mem_append_right _ ha)
    have step : StorageInv (applyOp s op) ∧
        ∀ a ∈ (applyOp s op).block.balances.map Prod.fst, a ∈ S := by
      cases op with
      | update addr balance =>
        refine ⟨storageInv_update_balance _ _ _ hInv ?_, ?_⟩
        · intro c hc hh
          exact hS c (hkeys c hc) addr (hop addr (by simp [Op.addrs])) hh
        · intro a ha
          rcases keys_insertBal _ _ _ _ ha with h | h
          · exact h ▸ hop addr (by simp [Op.addrs])
          · exact hkeys a h
      | transfer src dest amount =>
        have hsrcS : src ∈ S := hop src (by simp [Op.addrs])
        have hdestS : dest ∈ S := hop dest (by simp [Op.addrs])
        refine ⟨storageInv_transfer _ _ _ _ hInv ?_ ?_ ?_, ?_⟩
        · intro c hc hh; exact hS c (hkeys c hc) src hsrcS hh
        · intro c hc hh; exact hS c (hkeys c hc) dest hdestS hh
        · intro hh; exact hS src hsrcS dest hdestS hh
        · intro a ha
          rcases transfer_keys s src dest amount a ha with h | h | h
          · exact h ▸ hsrcS
          · exact h ▸ hdestS
          · exact hkeys a h
    exact ih (applyOp s op) S step.1 hS step.2 hrest

theorem mem_keys_lookupBal :
    ∀ (bs : List (Address × Balance)) (x : Address),
    x ∈ bs.map Prod.fst → ∃ b, lookupBal bs x = some b := by
  intro bs
  induction bs with
  | nil => intro x hx; simp at hx
  | cons e rest ih =>
    intro x hx
    obtain ⟨k, v⟩ := e
    simp only [List.map_cons, List.mem_cons] at hx
    by_cases hk : k = x
    · exact ⟨v, by simp [lookupBal, hk]⟩
    · rcases hx with h | h
      · exact absurd h.symm hk
      · obtain ⟨b, hb⟩ := ih x h
        exact ⟨b, by simp [lookupBal, hk, hb]⟩

theorem tree_at_lookup (s : Storage) (x : Address) (b : Balance)
    (hInv : StorageInv s)
    (hl : lookupBal s.block.balances x = some b)
    (hcond : ∀ c ∈ s.block.balances.map Prod.fst,
      c.hash256 = x.hash256 → c = x) :
    s.block.tree x.hash256 = b.hash256 := by
  rw [hInv.2]
  exact valAtHash_lookup _ x b hl hcond

theorem tree_at_absent (s : Storage) (x : Address)
    (hInv : StorageInv s)
    (hl : lookupBal s.block.balances x = none)
    (hcond : ∀ c ∈ s.block.balances.map Prod.fst,
      c.hash256 = x.hash256 → c = x) :
    s.block.tree x.hash256 = H256.zero := by
  rw [hInv.2]
  apply valAtHash_not_mem
  intro c hc hck
  have hcx : c = x := hcond c hc hck
  subst hcx
  obtain ⟨b, hb⟩ := mem_keys_lookupBal _ c hc
  rw [hb] at hl
  exact Option.noConfusion hl

theorem foldl_update_eq :
    ∀ (bs : List (Address × Balance)) (t : MerkleTree) (k : H256),
    ((bs.map fun e => e.1.hash256).Nodup) →
    (bs.foldl (fun t e => t.update e.1.hash256 e.2.hash256) t) k =
      if ∃ e ∈ bs, e.1.hash256 = k then valAtHash bs k else t k := by
  intro bs
  induction bs with
  | nil =>
    intro t k _
    simp [valAtHash]
  | cons e rest ih =>
    intro t k hnd
    obtain ⟨a, b⟩ := e
    simp only [List.map_cons, List.nodup_cons] at hnd
    rw [List.foldl_cons, ih _ k hnd.2]
    by_cases hrest : ∃ e ∈ rest, e.1.hash256 = k
    · have hak : ¬ a.hash256 = k := by
        obtain ⟨e, he, hek⟩ := hrest
        intro hk
        exact hnd.1 (List.mem_map.mpr ⟨e, he, hek.trans hk.symm⟩)
      have hex : ∃ e ∈ (a, b) :: rest, e.1.hash256 = k := by
        obtain ⟨e, he, hek⟩ := hrest
        exact ⟨e, List.mem_cons_of_mem _ he, hek⟩
      rw [if_pos hrest, if_pos hex]
      simp only [valAtHash, if_neg hak]
    · by_cases hak : a.hash256 = k
      · have hex : ∃ e ∈ (a, b) :: rest, e.1.hash256 = k :=
          ⟨(a, b), List.mem_cons_self _ _, hak⟩
        rw [if_neg hrest, if_pos hex]
        have h2 : k = a.hash256 := hak.symm
        simp only [MerkleTree.update, if_pos h2, valAtHash, if_pos hak]
      · have hex : ¬ ∃ e ∈ (a, b) :: rest, e.1.hash256 = k := by
          rintro ⟨e, he, hek⟩
          rcases List.mem_cons.mp he with rfl | hmem
          · exact hak hek
          · exact hrest ⟨e, hmem, hek⟩
        have h2 : ¬ k = a.hash256 := fun hh => hak hh.symm
        rw [if_neg hrest, if_neg hex]
        simp only [MerkleTree.update, if_neg h2]

theorem recomputedRoot_eq_tree (s : Storage)
    (hInv : StorageInv s)
    (hinj : ∀ a ∈ s.block.balances.map Prod.fst,
      ∀ b ∈ s.block.balances.map Prod.fst, a.hash256 = b.hash256 → a = b) :
    recomputedRoot s.block.balances = s.merkle_root := by
  funext k
  have hmm : s.block.balances.map (fun e => e.1.hash256) =
      (s.block.balances.map Prod.fst).map Address.hash256 := by
    rw [List.map_map]
    rfl
  have hnd : ((s.block.balances.map fun e => e.1.hash256).Nodup) := by
    rw [hmm]
    exact List.Nodup.map_on hinj hInv.1
  rw [recomputedRoot, foldl_update_eq _ _ _ hnd]
  by_cases hex : ∃ e ∈ s.block.balances, e.1.hash256 = k
  · rw [if_pos hex, Storage.merkle_root, hInv.2 k]
  · rw [if_neg hex, Storage.merkle_root, hInv.2 k, valAtHash_not_mem]
    · rfl
    · intro c hc hck
      obtain ⟨e, he, hfst⟩ := List.mem_map.mp hc
      refine hex ⟨e, he, ?_⟩
      rw [hfst]
      exact hck

/-- C1 (amended): starting from the default storage, after every
sequence of successful `update_balance` and `transfer` calls whose
addresses have pairwise-distinct `hash256` digests, every entry
`(addr, bal)` of the balance map has the tree leaf
`hash256 addr ↦ hash256 bal`, and recomputing the root from the
balance map by the documented hashing rule equals `merkle_root()`. -/
theorem update_transfer_balance_tree_agreement (ops : List Op)
    (hinj : HashInjOn (addrsOf ops)) :
    (∀ addr bal, lookupBal (runOps ops).block.balances addr = some bal →
      (runOps ops).block.tree addr.hash256 = bal.hash256) ∧
    recomputedRoot (runOps ops).block.balances = (runOps ops).merkle_root := by
  have base : StorageInv Storage.default := ⟨List.nodup_nil, fun k => rfl⟩
  have main := storageInv_runFrom ops Storage.default (addrsOf ops) base hinj
    (by intro a ha; simp [Storage.default] at ha) (fun a ha => ha)
  obtain ⟨hInv, hkeys⟩ := main
  constructor
  · intro addr bal hl
    have haddr : addr ∈ (runOps ops).block.balances.map Prod.fst :=
      lookupBal_mem_keys _ addr bal hl
    exact tree_at_lookup _ addr bal hInv hl
      (fun c hc hh => hinj c (hkeys c hc) addr (hkeys addr haddr) hh)
  · exact recomputedRoot_eq_tree _ hInv
      (fun a ha b hb => hinj a (hkeys a ha) b (hkeys b hb))

/-- C1 witness: the amended theorem applied to a concrete one-update
sequence, its injectivity hypothesis discharged by evaluation. -/
theorem update_transfer_balance_tree_agreement_witness :
    HashInjOn (addrsOf [Op.update (Address.Basic [97]) 5]) ∧
    recomputedRoot (runOps
        [Op.update (Address.Basic [97]) 5]).block.balances =
      (runOps [Op.update (Address.Basic [97]) 5]).merkle_root :=
  ⟨by decide, (update_transfer_balance_tree_agreement
      [Op.update (Address.Basic [97]) 5] (by decide)).2⟩

/-- C1 counterexample: after the two successful `update_balance` calls
on a Validator and a Basic address wrapping the same identifier, the
balance map holds the entry `(Validator "a", Balance 10)` but the tree
leaf at its key digest is `hash256 (Balance 20)`, not
`hash256 (Balance 10)` — the map and the tree have diverged. -/
theorem balance_tree_divergence_counterexample :
    lookupBal (runOps [Op.update (Address.Validator [97]) 10,
        Op.update (Address.Basic [97]) 20]).block.balances
      (Address.Validator [97]) = some ⟨10⟩ ∧
    (runOps [Op.update (Address.Validator [97]) 10,
        Op.update (Address.Basic [97]) 20]).block.tree
      (Address.Validator [97]).hash256 ≠ (Balance.mk 10).hash256 := by
  constructor
  · decide
  · decide

/-- C2: `transfer` returns the "Source not found" error when the
source has no balance entry, and the "Source balance is too low" error
when its balance is strictly below `amount`; in both cases the
returned state is exactly the input state, so the balance map, the
tree and `merkle_root()` are unchanged. -/
theorem transfer_failure_cases (s : Storage) (src dest : Address)
    (amount : Nat) :
    (lookupBal s.block.balances src = none →
      s.transfer src dest amount = (.error "Source not found", s)) ∧
    (∀ b, lookupBal s.block.balances src = some b → b.val < amount →
      s.transfer src dest amount = (.error "Source balance is too low", s)) :=
  ⟨fun h => transfer_eq_none s src dest amount h,
   fun b h hlt => transfer_eq_low s src dest amount b h hlt⟩

/-- C2 witness: both failure cases at concrete inputs. -/
theorem transfer_failure_cases_witness :
    Storage.default.transfer (Address.Basic [97]) (Address.Basic [98]) 1 =
      (.error "Source not found", Storage.default) ∧
    (runOps [Op.update (Address.Basic [97]) 5]).transfer
        (Address.Basic [97]) (Address.Basic [98]) 7 =
      (.error "Source balance is too low",
        runOps [Op.update (Address.Basic [97]) 5]) :=
  ⟨(transfer_failure_cases Storage.default _ _ 1).1 (by decide),
   (transfer_failure_cases _ _ _ 7).2 ⟨5⟩ (by decide) (by decide)⟩

/-- C3 counterexample: a Validator and a Basic address wrapping the
same identifier are distinct addresses with identical `hash256`
digests. -/
theorem address_hash_collision_counterexample :
    Address.Validator [97] ≠ Address.Basic [97] ∧
    (Address.Validator [97]).hash256 = (Address.Basic [97]).hash256 :=
  ⟨by decide, rfl⟩

/-- C3 (amended): `hash256` on addresses depends only on the wrapped
identifier string — both variants hash to the string hash, so a
Validator and a Basic address wrapping the same identifier yield the
same digest (there is no variant domain separation). -/
theorem address_hash_no_variant_separation (s : List Nat) :
    (Address.Validator s).hash256 = (Address.Basic s).hash256 ∧
    (Address.Validator s).hash256 = strHash256 s :=
  ⟨rfl, rfl⟩

/-- C5 counterexample: `hash256(0u64)` is not the all-zero digest —
the u64 implementation hashes the eight zero bytes through blake2b
with no zero special case. -/
theorem u64_zero_hash_counterexample : u64Hash256 0 ≠ H256.zero := by decide

/-- C5 (amended): the empty string and the zero `Balance` hash to the
all-zero digest, `hash256(0u64)` does not, and
`hash256(5u64) ≠ hash256(6u64)`. -/
theorem hash_constants :
    strHash256 [] = H256.zero ∧
    Balance.hash256 ⟨0⟩ = H256.zero ∧
    u64Hash256 0 ≠ H256.zero ∧
    u64Hash256 5 ≠ u64Hash256 6 :=
  ⟨rfl, rfl, by decide, by decide⟩

/-- C6: `set_chain_id` changes only the chain identifier and
`begin_block` replaces only the block hash and height; in both cases
the balances, the tree and `merkle_root()` are untouched and the call
returns `Ok`. -/
theorem set_chain_id_begin_block_frame (s : Storage) (id : List Nat)
    (h : BlockHash) (ht : Nat) :
    (s.set_chain_id id).1 = .ok () ∧
    (s.set_chain_id id).2.chain_id = id ∧
    (s.set_chain_id id).2.block = s.block ∧
    (s.set_chain_id id).2.merkle_root = s.merkle_root ∧
    (s.begin_block h ht).1 = .ok () ∧
    (s.begin_block h ht).2.chain_id = s.chain_id ∧
    (s.begin_block h ht).2.block.hash = h ∧
    (s.begin_block h ht).2.block.height = ht ∧
    (s.begin_block h ht).2.block.balances = s.block.balances ∧
    (s.begin_block h ht).2.block.tree = s.block.tree ∧
    (s.begin_block h ht).2.merkle_root = s.merkle_root :=
  ⟨rfl, rfl, rfl, rfl, rfl, rfl, rfl, rfl, rfl, rfl, rfl⟩

/-- C7: the two-step read returns `none` exactly when the probe result
is the negative failure sentinel or the materialized bytes fail to
decode, and `some v` exactly when the probe is non-negative and the
bytes decode to `v`; `tx::read`, `vp::read_pre` and `vp::read_post`
are exactly this composition of probe and `read_from_buffer`. -/
theorem read_from_buffer_spec {T : Type} (r : Int) (buf : List Nat)
    (decode : List Nat → Option T) :
    (read_from_buffer r buf decode = none ↔ r < 0 ∨ decode buf = none) ∧
    (∀ v, read_from_buffer r buf decode = some v ↔
      0 ≤ r ∧ decode buf = some v) ∧
    (∀ host key, tx_read host key decode =
      read_from_buffer (host key).1 (host key).2 decode) ∧
    (∀ host key, vp_read_pre host key decode =
      read_from_buffer (host key).1 (host key).2 decode) ∧
    (∀ host key, vp_read_post host key decode =
      read_from_buffer (host key).1 (host key).2 decode) := by
  refine ⟨?_, ?_, fun host key => rfl, fun host key => rfl,
    fun host key => rfl⟩
  · by_cases h : r < 0
    · simp [read_from_buffer, HostEnvResult.is_fail, h]
    · simp [read_from_buffer, HostEnvResult.is_fail, h]
  · intro v
    by_cases h : r < 0
    · simp [read_from_buffer, HostEnvResult.is_fail, h, Int.not_le.mpr h]
    · simp [read_from_buffer, HostEnvResult.is_fail, h, Int.not_lt.mp h]

/-- C8: `BlockHash::try_from` fails on every byte slice whose length
is not 32 (with the length-mismatch message) and succeeds on every
32-byte slice, returning a `BlockHash` holding exactly those bytes. -/
theorem blockhash_tryfrom_spec (bs : List Nat) :
    (bs.length ≠ 32 → BlockHash.tryFrom bs =
      .error ("Unexpected block hash length " ++ toString bs.length ++
        ", expected " ++ toString BLOCK_HASH_LENGTH)) ∧
    (bs.length = 32 → BlockHash.tryFrom bs = .ok ⟨bs⟩) := by
  constructor
  · intro h
    simp [BlockHash.tryFrom, BLOCK_HASH_LENGTH, h]
  · intro h
    simp [BlockHash.tryFrom, BLOCK_HASH_LENGTH, h]

/-- C8 witness: a 32-byte slice round-trips and a 3-byte slice fails. -/
theorem blockhash_tryfrom_spec_witness :
    BlockHash.tryFrom (List.replicate 32 0) = .ok ⟨List.replicate 32 0⟩ ∧
    BlockHash.tryFrom [1, 2, 3] =
      .error ("Unexpected block hash length " ++
        toString ([1, 2, 3] : List Nat).length ++
        ", expected " ++ toString BLOCK_HASH_LENGTH) :=
  ⟨(blockhash_tryfrom_spec (List.replicate 32 0)).2 (by decide),
   (blockhash_tryfrom_spec [1, 2, 3]).1 (by decide)⟩

/-- C9: `verify_signature` returns the `EncodingError` variant exactly
when Borsh-encoding the data fails, the `SigError` variant exactly
when the ed25519 check of the encoded bytes fails, `Ok` exactly when
both succeed, and the two failure variants are distinguishable. -/
theorem verify_signature_error_separation {T PK Sig : Type}
    (try_to_vec : T → Except String (List Nat))
    (verify_strict : PK → List Nat → Sig → Except String Unit)
    (pk : PK) (data : T) (sig : Sig) :
    (∀ e, verify_signature try_to_vec verify_strict pk data sig =
        .error (.EncodingError e) ↔ try_to_vec data = .error e) ∧
    (∀ e, verify_signature try_to_vec verify_strict pk data sig =
        .error (.SigError e) ↔ ∃ bytes, try_to_vec data = .ok bytes ∧
          verify_strict pk bytes sig = .error e) ∧
    (verify_signature try_to_vec verify_strict pk data sig = .ok () ↔
      ∃ bytes, try_to_vec data = .ok bytes ∧
        verify_strict pk bytes sig = .ok ()) ∧
    (∀ e1 e2, (VerifySigError.EncodingError e1 : VerifySigError) ≠
      VerifySigError.SigError e2) := by
  refine ⟨fun e => ?_, fun e => ?_, ?_, fun e1 e2 h => by cases h⟩
  · cases henc : try_to_vec data with
    | error e0 => simp [verify_signature, henc]
    | ok bytes =>
      cases hver : verify_strict pk bytes sig with
      | error e0 => simp [verify_signature, henc, hver]
      | ok u => simp [verify_signature, henc, hver]
  · cases henc : try_to_vec data with
    | error e0 => simp [verify_signature, henc]
    | ok bytes =>
      cases hver : verify_strict pk bytes sig with
      | error e0 => simp [verify_signature, henc, hver]
      | ok u => simp [verify_signature, henc, hver]
  · cases henc : try_to_vec data with
    | error e0 => simp [verify_signature, henc]
    | ok bytes =>
      cases hver : verify_strict pk bytes sig with
      | error e0 => simp [verify_signature, henc, hver]
      | ok u => simp [verify_signature, henc, hver]

/-- C10: `transfer` credits the destination with u64 addition: when
the destination already holds `b`, its new balance is
`(b + amount) % 2 ^ 64`, which equals the mathematical sum exactly
under the precondition `b + amount ≤ 2 ^ 64 - 1`; the second conjunct
exhibits concrete inputs violating the precondition on which the
addition wraps (in a release build; a debug build would panic). -/
theorem transfer_credit_overflow :
    (∀ (s : Storage) (src dest : Address) (amount : Nat) (a b : Balance),
      src ≠ dest →
      lookupBal s.block.balances src = some a →
      ¬ a.val < amount →
      lookupBal s.block.balances dest = some b →
      balOf (s.transfer src dest amount).2 dest = (b.val + amount) % U64 ∧
      (b.val + amount ≤ U64 - 1 →
        balOf (s.transfer src dest amount).2 dest = b.val + amount)) ∧
    (balOf ((runOps [Op.update (Address.Basic [115]) 1,
        Op.update (Address.Basic [100]) (U64 - 1)]).transfer
        (Address.Basic [115]) (Address.Basic [100]) 1).2
      (Address.Basic [100]) = 0 ∧
      (U64 - 1) + 1 ≠ 0) := by
  constructor
  · intro s src dest amount a b hne hsrc hge hdest
    have hdest1 : lookupBal (s.update_balance src
        ⟨a.val - amount⟩).block.balances dest = some b := by
      rw [update_balance_balances, lookupBal_insertBal,
        if_neg (fun h : dest = src => hne h.symm)]
      exact hdest
    rw [transfer_eq_present s src dest amount a b hsrc hge hdest1]
    have hval : balOf ((s.update_balance src
        ⟨a.val - amount⟩).update_balance dest
          ⟨(b.val + amount) % U64⟩) dest = (b.val + amount) % U64 := by
      unfold balOf
      rw [update_balance_balances, lookupBal_insertBal, if_pos rfl]
    refine ⟨hval, fun hle => ?_⟩
    have hpos : 0 < U64 := by decide
    have hlt : b.val + amount < U64 :=
      Nat.lt_of_le_of_lt hle (Nat.sub_lt hpos Nat.one_pos)
    rw [hval, Nat.mod_eq_of_lt hlt]
  · constructor
    · decide
    · decide

/-- C10 witness: the universal conjunct applied at a concrete state
where the addition stays within u64 range. -/
theorem transfer_credit_overflow_witness :
    balOf ((runOps [Op.update (Address.Basic [115]) 3,
        Op.update (Address.Basic [100]) 5]).transfer
        (Address.Basic [115]) (Address.Basic [100]) 1).2
      (Address.Basic [100]) = (5 + 1) % U64 ∧
    ((5 : Nat) + 1 ≤ U64 - 1 →
      balOf ((runOps [Op.update (Address.Basic [115]) 3,
          Op.update (Address.Basic [100]) 5]).transfer
          (Address.Basic [115]) (Address.Basic [100]) 1).2
        (Address.Basic [100]) = 5 + 1) :=
  transfer_credit_overflow.1 _ _ _ 1 ⟨3⟩ ⟨5⟩ (by decide) (by decide)
    (by decide) (by decide)

theorem round_trip_distinct (s : Storage) (A B : Address) (amount : Nat)
    (a : Balance) (hAB : ¬ B = A)
    (hInv : StorageInv s)
    (hcondA : ∀ c ∈ s.block.balances.map Prod.fst,
      c.hash256 = A.hash256 → c = A)
    (hcondB : ∀ c ∈ s.block.balances.map Prod.fst,
      c.hash256 = B.hash256 → c = B)
    (hA : lookupBal s.block.balances A = some a)
    (hge : amount ≤ a.val)
    (haMax : a.val < U64)
    (hovf : balOf s B + amount < U64) :
    (s.transfer A B amount).1 = .ok () ∧
    ((s.transfer A B amount).2.transfer B A amount).1 = .ok () ∧
    lookupBal ((s.transfer A B amount).2.transfer B A
      amount).2.block.balances A = some a ∧
    balOf ((s.transfer A B amount).2.transfer B A amount).2 B = balOf s B ∧
    ((s.transfer A B amount).2.transfer B A amount).2.merkle_root =
      s.merkle_root := by
  have hgelt : ¬ a.val < amount := Nat.not_lt.mpr hge
  have hAB2 : ¬ A = B := fun h => hAB h.symm
  have hva : ((⟨a.val - amount⟩ : Balance).val + amount) % U64 = a.val := by
    show (a.val - amount + amount) % U64 = a.val
    rw [Nat.sub_add_cancel hge]
    exact Nat.mod_eq_of_lt haMax
  have hlkB : lookupBal (s.update_balance A
      ⟨a.val - amount⟩).block.balances B = lookupBal s.block.balances B := by
    rw [update_balance_balances, lookupBal_insertBal, if_neg hAB]
  cases hB : lookupBal s.block.balances B with
  | none =>
    have hb0 : balOf s B = 0 := by unfold balOf; rw [hB]
    have e1 : s.transfer A B amount = (.ok (),
        (s.update_balance A ⟨a.val - amount⟩).update_balance B ⟨amount⟩) :=
      transfer_eq_absent s A B amount a hA hgelt (by rw [hlkB]; exact hB)
    have hlkB1 : lookupBal ((s.update_balance A
        ⟨a.val - amount⟩).update_balance B ⟨amount⟩).block.balances B =
        some ⟨amount⟩ := by
      rw [update_balance_balances, lookupBal_insertBal, if_pos rfl]
    have hgelt2 : ¬ (⟨amount⟩ : Balance).val < amount := Nat.lt_irrefl amount
    have hlkA1 : lookupBal (((s.update_balance A
        ⟨a.val - amount⟩).update_balance B ⟨amount⟩).update_balance B
          ⟨(⟨amount⟩ : Balance).val - amount⟩).block.balances A =
        some ⟨a.val - amount⟩ := by
      rw [update_balance_balances, lookupBal_insertBal, if_neg hAB2,
        update_balance_balances, lookupBal_insertBal, if_neg hAB2,
        update_balance_balances, lookupBal_insertBal, if_pos rfl]
    have e2 : ((s.update_balance A ⟨a.val - amount⟩).update_balance B
        ⟨amount⟩).transfer B A amount = (.ok (),
        (((s.update_balance A ⟨a.val - amount⟩).update_balance B
            ⟨amount⟩).update_balance B
          ⟨(⟨amount⟩ : Balance).val - amount⟩).update_balance A ⟨a.val⟩) := by
      rw [transfer_eq_present _ B A amount ⟨amount⟩ ⟨a.val - amount⟩ hlkB1
        hgelt2 hlkA1, hva]
    refine ⟨by rw [e1], by rw [e1]; rw [e2], ?_, ?_, ?_⟩
    · rw [e1]
      rw [e2]
      rw [update_balance_balances, lookupBal_insertBal, if_pos rfl]
    · rw [e1]
      rw [e2]
      unfold balOf
      rw [hB, update_balance_balances, lookupBal_insertBal, if_neg hAB,
        update_balance_balances, lookupBal_insertBal, if_pos rfl]
      exact Nat.sub_self amount
    · rw [e1]
      rw [e2]
      funext k
      simp only [Storage.merkle_root, update_balance_tree, MerkleTree.update]
      by_cases hk : k = A.hash256
      · simp only [if_pos hk]
        rw [hk, tree_at_lookup s A a hInv hA hcondA]
      · simp only [if_neg hk]
        by_cases hkB : k = B.hash256
        · simp only [if_pos hkB]
          rw [hkB, tree_at_absent s B hInv hB hcondB]
          show Balance.hash256 ⟨amount - amount⟩ = H256.zero
          simp [Balance.hash256, Nat.sub_self]
        · simp only [if_neg hkB]
  | some b =>
    have hovf2 : b.val + amount < U64 := by
      have hb0 : balOf s B = b.val := by unfold balOf; rw [hB]
      rw [hb0] at hovf
      exact hovf
    have hvb : (b.val + amount) % U64 = b.val + amount :=
      Nat.mod_eq_of_lt hovf2
    have e1 : s.transfer A B amount = (.ok (),
        (s.update_balance A ⟨a.val - amount⟩).update_balance B
          ⟨b.val + amount⟩) := by
      rw [transfer_eq_present s A B amount a b hA hgelt
        (by rw [hlkB]; exact hB), hvb]
    have hlkB1 : lookupBal ((s.update_balance A
        ⟨a.val - amount⟩).update_balance B ⟨b.val + amount⟩).block.balances
        B = some ⟨b.val + amount⟩ := by
      rw [update_balance_balances, lookupBal_insertBal, if_pos rfl]
    have hgelt2 : ¬ (⟨b.val + amount⟩ : Balance).val < amount :=
      Nat.not_lt.mpr (Nat.le_add_left amount b.val)
    have hlkA1 : lookupBal (((s.update_balance A
        ⟨a.val - amount⟩).update_balance B
          ⟨b.val + amount⟩).update_balance B
          ⟨(⟨b.val + amount⟩ : Balance).val - amount⟩).block.balances A =
        some ⟨a.val - amount⟩ := by
      rw [update_balance_balances, lookupBal_insertBal, if_neg hAB2,
        update_balance_balances, lookupBal_insertBal, if_neg hAB2,
        update_balance_balances, lookupBal_insertBal, if_pos rfl]
    have e2 : ((s.update_balance A ⟨a.val - amount⟩).update_balance B
        ⟨b.val + amount⟩).transfer B A amount = (.ok (),
        (((s.update_balance A ⟨a.val - amount⟩).update_balance B
            ⟨b.val + amount⟩).update_balance B
          ⟨(⟨b.val + amount⟩ : Balance).val - amount⟩).update_balance A
            ⟨a.val⟩) := by
      rw [transfer_eq_present _ B A amount ⟨b.val + amount⟩ ⟨a.val - amount⟩
        hlkB1 hgelt2 hlkA1, hva]
    refine ⟨by rw [e1], by rw [e1]; rw [e2], ?_, ?_, ?_⟩
    · rw [e1]
      rw [e2]
      rw [update_balance_balances, lookupBal_insertBal, if_pos rfl]
    · rw [e1]
      rw [e2]
      unfold balOf
      rw [hB, update_balance_balances, lookupBal_insertBal, if_neg hAB,
        update_balance_balances, lookupBal_insertBal, if_pos rfl]
      show b.val + amount - amount = b.val
      exact Nat.add_sub_cancel b.val amount
    · rw [e1]
      rw [e2]
      funext k
      simp only [Storage.merkle_root, update_balance_tree, MerkleTree.update]
      by_cases hk : k = A.hash256
      · simp only [if_pos hk]
        rw [hk, tree_at_lookup s A a hInv hA hcondA]
      · simp only [if_neg hk]
        by_cases hkB : k = B.hash256
        · simp only [if_pos hkB]
          rw [hkB, tree_at_lookup s B b hInv hB hcondB]
          show Balance.hash256 ⟨b.val + amount - amount⟩ = b.hash256
          rw [Nat.add_sub_cancel]
        · simp only [if_neg hkB]

theorem round_trip_self (s : Storage) (A : Address) (amount : Nat)
    (a : Balance)
    (hInv : StorageInv s)
    (hcondA : ∀ c ∈ s.block.balances.map Prod.fst,
      c.hash256 = A.hash256 → c = A)
    (hA : lookupBal s.block.balances A = some a)
    (hge : amount ≤ a.val)
    (haMax : a.val < U64) :
    (s.transfer A A amount).1 = .ok () ∧
    ((s.transfer A A amount).2.transfer A A amount).1 = .ok () ∧
    lookupBal ((s.transfer A A amount).2.transfer A A
      amount).2.block.balances A = some a ∧
    balOf ((s.transfer A A amount).2.transfer A A amount).2 A = balOf s A ∧
    ((s.transfer A A amount).2.transfer A A amount).2.merkle_root =
      s.merkle_root := by
  have hgelt : ¬ a.val < amount := Nat.not_lt.mpr hge
  have hva : ((⟨a.val - amount⟩ : Balance).val + amount) % U64 = a.val := by
    show (a.val - amount + amount) % U64 = a.val
    rw [Nat.sub_add_cancel hge]
    exact Nat.mod_eq_of_lt haMax
  have step : ∀ (t : Storage), lookupBal t.block.balances A = some a →
      t.transfer A A amount = (.ok (),
        (t.update_balance A ⟨a.val - amount⟩).update_balance A ⟨a.val⟩) := by
    intro t hlk
    have hlkA1 : lookupBal (t.update_balance A
        ⟨a.val - amount⟩).block.balances A = some ⟨a.val - amount⟩ := by
      rw [update_balance_balances, lookupBal_insertBal, if_pos rfl]
    rw [transfer_eq_present t A A amount a ⟨a.val - amount⟩ hlk hgelt hlkA1,
      hva]
  have e1 := step s hA
  have hlkMid : lookupBal ((s.update_balance A
      ⟨a.val - amount⟩).update_balance A ⟨a.val⟩).block.balances A =
      some a := by
    rw [update_balance_balances, lookupBal_insertBal, if_pos rfl]
  have e2 := step _ hlkMid
  refine ⟨by rw [e1], by rw [e1]; rw [e2], ?_, ?_, ?_⟩
  · rw [e1]
    rw [e2]
    rw [update_balance_balances, lookupBal_insertBal, if_pos rfl]
  · rw [e1]
    rw [e2]
    unfold balOf
    rw [hA, update_balance_balances, lookupBal_insertBal, if_pos rfl]
  · rw [e1]
    rw [e2]
    funext k
    simp only [Storage.merkle_root, update_balance_tree, MerkleTree.update]
    by_cases hk : k = A.hash256
    · simp only [if_pos hk]
      rw [hk, tree_at_lookup s A a hInv hA hcondA]
    · simp only [if_neg hk]

/-- C4 (amended): for states reached from the default storage by
operations whose addresses (together with `A` and `B`) have
pairwise-distinct `hash256` digests, if `A` holds balance `a` with
`amount ≤ a < 2 ^ 64` and crediting `B` cannot overflow u64, then
`transfer(A, B, amount)` followed by `transfer(B, A, amount)` both
succeed and restore `A`'s balance entry, `B`'s balance (absence
counting as zero) and `merkle_root()`. -/
theorem transfer_round_trip (ops : List Op) (A B : Address) (amount : Nat)
    (a : Balance)
    (hinj : HashInjOn (addrsOf ops ++ [A, B]))
    (hA : lookupBal (runOps ops).block.balances A = some a)
    (hge : amount ≤ a.val)
    (haMax : a.val < U64)
    (hBovf : balOf (runOps ops) B + amount < U64) :
    ((runOps ops).transfer A B amount).1 = .ok () ∧
    (((runOps ops).transfer A B amount).2.transfer B A amount).1 = .ok () ∧
    lookupBal (((runOps ops).transfer A B amount).2.transfer B A
      amount).2.block.balances A =
      lookupBal (runOps ops).block.balances A ∧
    balOf (((runOps ops).transfer A B amount).2.transfer B A amount).2 B =
      balOf (runOps ops) B ∧
    (((runOps ops).transfer A B amount).2.transfer B A amount).2.merkle_root =
      (runOps ops).merkle_root := by
  have base : StorageInv Storage.default := ⟨List.nodup_nil, fun k => rfl⟩
  have main := storageInv_runFrom ops Storage.default (addrsOf ops ++ [A, B])
    base hinj (by intro x hx; simp [Storage.default] at hx)
    (fun x hx => List.mem_append_left _ hx)
  obtain ⟨hInv, hkeys⟩ := main
  have hAS : A ∈ addrsOf ops ++ [A, B] :=
    List.mem_append_right _ (by simp)
  have hBS : B ∈ addrsOf ops ++ [A, B] :=
    List.mem_append_right _ (by simp)
  have hcondA : ∀ c ∈ (runOps ops).block.balances.map Prod.fst,
      c.hash256 = A.hash256 → c = A :=
    fun c hc hh => hinj c (hkeys c hc) A hAS hh
  have hcondB : ∀ c ∈ (runOps ops).block.balances.map Prod.fst,
      c.hash256 = B.hash256 → c = B :=
    fun c hc hh => hinj c (hkeys c hc) B hBS hh
  rw [hA]
  by_cases hAB : B = A
  · subst hAB
    exact round_trip_self (runOps ops) B amount a hInv hcondA hA hge haMax
  · exact round_trip_distinct (runOps ops) A B amount a hAB hInv hcondA
      hcondB hA hge haMax hBovf

/-- C4 witness: the amended theorem applied to a concrete reachable
state, all hypotheses discharged by evaluation. -/
theorem transfer_round_trip_witness :
    ((runOps [Op.update (Address.Basic [97]) 5]).transfer (Address.Basic [97])
        (Address.Basic [98]) 3).1 = .ok () ∧
    (((runOps [Op.update (Address.Basic [97]) 5]).transfer
        (Address.Basic [97]) (Address.Basic [98]) 3).2.transfer
        (Address.Basic [98]) (Address.Basic [97]) 3).1 = .ok () ∧
    lookupBal (((runOps [Op.update (Address.Basic [97]) 5]).transfer
        (Address.Basic [97]) (Address.Basic [98]) 3).2.transfer
        (Address.Basic [98]) (Address.Basic [97])
        3).2.block.balances (Address.Basic [97]) =
      lookupBal (runOps
        [Op.update (Address.Basic [97]) 5]).block.balances
        (Address.Basic [97]) ∧
    balOf (((runOps [Op.update (Address.Basic [97]) 5]).transfer
        (Address.Basic [97]) (Address.Basic [98]) 3).2.transfer
        (Address.Basic [98]) (Address.Basic [97]) 3).2 (Address.Basic [98]) =
      balOf (runOps [Op.update (Address.Basic [97]) 5])
        (Address.Basic [98]) ∧
    (((runOps [Op.update (Address.Basic [97]) 5]).transfer
        (Address.Basic [97]) (Address.Basic [98]) 3).2.transfer
        (Address.Basic [98]) (Address.Basic [97]) 3).2.merkle_root =
      (runOps [Op.update (Address.Basic [97]) 5]).merkle_root :=
  transfer_round_trip [Op.update (Address.Basic [97]) 5] (Address.Basic [97])
    (Address.Basic [98]) 3 ⟨5⟩ (by decide) (by decide) (by decide) (by decide)
    (by decide)

/-- C4 counterexample: a reachable state (two updates, to a Validator
and a Basic address wrapping the same identifier) on which `A` holds
balance 5, both transfers of the round trip succeed, and yet
`merkle_root()` is not restored — the colliding leaf was overwritten. -/
theorem round_trip_root_counterexample :
    lookupBal (runOps [Op.update (Address.Validator [97]) 5,
        Op.update (Address.Basic [97]) 7]).block.balances
      (Address.Validator [97]) = some ⟨5⟩ ∧
    ((runOps [Op.update (Address.Validator [97]) 5,
        Op.update (Address.Basic [97]) 7]).transfer (Address.Validator [97])
      (Address.Basic [99]) 5).1 = .ok () ∧
    (((runOps [Op.update (Address.Validator [97]) 5,
        Op.update (Address.Basic [97]) 7]).transfer (Address.Validator [97])
        (Address.Basic [99]) 5).2.transfer (Address.Basic [99])
      (Address.Validator [97]) 5).1 = .ok () ∧
    (((runOps [Op.update (Address.Validator [97]) 5,
        Op.update (Address.Basic [97]) 7]).transfer (Address.Validator [97])
        (Address.Basic [99]) 5).2.transfer (Address.Basic [99])
      (Address.Validator [97]) 5).2.merkle_root ≠
      (runOps [Op.update (Address.Validator [97]) 5,
        Op.update (Address.Basic [97]) 7]).merkle_root := by
  refine ⟨by decide, rfl, rfl, fun h => ?_⟩
  have hpt := congrFun h (Address.Validator [97]).hash256
  revert hpt
  decide
